import Mathlib

/-!
# Verification of `scripts/build/update-deps.py`

A shallow embedding of the two functions of the script
`scripts/build/update-deps.py`:

* `parse_go_sum` (lines 8-22): reads the `go.sum` manifest line by line,
  skips blank lines and lines containing `/go.mod`, splits the rest on
  whitespace and records `module@version ↦ checksum` in a dict
  (later lines overwrite earlier ones).

* `update_deps_bzl` (lines 24-52): reads `deps.bzl`, runs `re.sub` with the
  pattern of line 30 over the whole text, replacing every matched
  `go_repository(...)` record through `replace_checksum` (lines 32-45),
  and writes the result back.

Text is modelled as `List Char`.  The regex of line 30 contains no `.`,
`^` or `$`, so the `re.MULTILINE | re.DOTALL` flags are no-ops; every
quantifier in it (`\s*` before a non-space literal, `[^"]+` before `"`)
is matched greedily and never needs backtracking, so the pattern is
embedded as the deterministic parser `pRecord` below.  `re.sub`'s
left-to-right, non-overlapping scan is embedded as a fuel-indexed scan
(`reSubGo` / `piecesGo`), with fuel = length of the remaining text, which
is always sufficient because every match consumes at least one character.
-/

set_option linter.unusedVariables false
set_option maxRecDepth 100000

/-- Python's `\s` / `str.strip()` / `str.split()` whitespace class
(ASCII part: space, tab, newline, carriage return, vertical tab, form feed). -/
def isPySpace (c : Char) : Bool :=
  c == ' ' || c == '\t' || c == '\n' || c == '\x0d' || c == '\x0b' || c == '\x0c'

/-- `startsWithL p s` : does `s` start with the literal `p`? -/
def startsWithL : List Char → List Char → Bool
  | [], _ => true
  | _ :: _, [] => false
  | c :: p, d :: s => c == d && startsWithL p s

/-- The literal `go_repository(` that opens the pattern of line 30. -/
def litGoRepo : List Char := "go_repository(".data

/-- The literal `name`. -/
def litName : List Char := "name".data

/-- The literal `importpath`. -/
def litImp : List Char := "importpath".data

/-- The literal `sum`. -/
def litSum : List Char := "sum".data

/-- The literal `version`. -/
def litVer : List Char := "version".data

/-- The literal `/go.mod` tested on every manifest line (line 14). -/
def litGoMod : List Char := "/go.mod".data

/-- The literal `=`. -/
def litEq : List Char := "=".data

/-- The literal `"`. -/
def litQuote : List Char := "\"".data

/-- The literal `,`. -/
def litComma : List Char := ",".data

/-- The literal `)` closing the pattern. -/
def litParen : List Char := ")".data

/-- Consume the literal `p` from the front of the text, returning the rest. -/
def pLit : List Char → List Char → Option (List Char)
  | [], s => some s
  | _ :: _, [] => none
  | c :: p, d :: s => if c = d then pLit p s else none

/-- The regex fragment `([^"]+)"`: a maximal nonempty run of non-quote
characters (the captured group), followed by the closing quote. -/
def pGrp (s : List Char) : Option (List Char × List Char) :=
  let g := s.takeWhile (fun c => c != '"')
  let r := s.dropWhile (fun c => c != '"')
  if g.isEmpty || r.isEmpty then none else some (g, r.tail)

/-- The regex fragment `key\s*=\s*"([^"]+)",` — one field of the record
pattern of line 30, returning the captured group and the rest. -/
def pField (key : List Char) (s : List Char) : Option (List Char × List Char) :=
  match pLit key s with
  | none => none
  | some s1 =>
    match pLit litEq (s1.dropWhile isPySpace) with
    | none => none
    | some s2 =>
      match pLit litQuote (s2.dropWhile isPySpace) with
      | none => none
      | some s3 =>
        match pGrp s3 with
        | none => none
        | some (v, s4) =>
          match pLit litComma s4 with
          | none => none
          | some s5 => some (v, s5)

/-- One `go_repository` record of `deps.bzl`, as captured by the four
groups of the pattern of line 30: `name`, `importpath`, `sum`, `version`. -/
structure GoRec where
  name : List Char
  impPath : List Char
  sum : List Char
  ver : List Char
deriving DecidableEq, Repr

/-- The whole pattern of line 30,
`go_repository\(\s*name\s*=\s*"([^"]+)",\s*importpath\s*=\s*"([^"]+)",\s*sum\s*=\s*"([^"]+)",\s*version\s*=\s*"([^"]+)",\s*\)`,
as a deterministic parser: on success it returns the captured record and
the text following the match. -/
def pRecord (s : List Char) : Option (GoRec × List Char) :=
  match pLit litGoRepo s with
  | none => none
  | some s1 =>
    match pField litName (s1.dropWhile isPySpace) with
    | none => none
    | some (n, s2) =>
      match pField litImp (s2.dropWhile isPySpace) with
      | none => none
      | some (i, s3) =>
        match pField litSum (s3.dropWhile isPySpace) with
        | none => none
        | some (sm, s4) =>
          match pField litVer (s4.dropWhile isPySpace) with
          | none => none
          | some (vr, s5) =>
            match pLit litParen (s5.dropWhile isPySpace) with
            | none => none
            | some s6 => some (⟨n, i, sm, vr⟩, s6)

/-- The checksum dict built by `parse_go_sum`.  A Python dict is modelled
as an association list searched front-to-back; insertion prepends, so
a later insertion of the same key shadows the earlier one, matching
dict overwrite semantics. -/
def CMap : Type := List (List Char × List Char)

/-- Dict lookup (`checksums[key]` / `key in checksums`). -/
def lookupC (k : List Char) : CMap → Option (List Char)
  | [] => none
  | (k', v) :: m => if k' = k then some v else lookupC k m

/-- `f"{importpath}@{version}"` — the lookup key of line 38
(and the dict key of line 21). -/
def keyOf (r : GoRec) : List Char := r.impPath ++ '@' :: r.ver

/-- `str.strip()` (line 13): remove leading and trailing whitespace. -/
def stripWS (l : List Char) : List Char :=
  ((l.dropWhile isPySpace).reverse.dropWhile isPySpace).reverse

/-- Worker for `splitWS`; `cur` is the current word, reversed. -/
def splitWSGo : List Char → List Char → List (List Char)
  | cur, [] => if cur.isEmpty then [] else [cur.reverse]
  | cur, c :: s =>
    if isPySpace c then
      if cur.isEmpty then splitWSGo [] s else cur.reverse :: splitWSGo [] s
    else splitWSGo (c :: cur) s

/-- `str.split()` with no argument (line 16): split on runs of whitespace,
discarding empty words. -/
def splitWS (l : List Char) : List (List Char) := splitWSGo [] l

/-- `'/go.mod' in line` (line 14): substring test. -/
def containsSub (pat : List Char) (s : List Char) : Bool :=
  s.tails.any (startsWithL pat)

/-- The contribution of a single manifest line to the dict (lines 13-21):
`none` when the line is skipped, otherwise the `(module@version, checksum)`
pair taken from its first three whitespace-separated fields. -/
def lineEntry (l : List Char) : Option (List Char × List Char) :=
  let t := stripWS l
  if t.isEmpty || containsSub litGoMod t then none
  else
    match splitWS t with
    | md :: vn :: ck :: _ => some (md ++ '@' :: vn, ck)
    | _ => none

/-- The dict-building loop of `parse_go_sum` (lines 12-21), with the dict
accumulated so far. -/
def parseAux : CMap → List (List Char) → CMap
  | acc, [] => acc
  | acc, l :: ls =>
    match lineEntry l with
    | some (k, v) => parseAux ((k, v) :: acc) ls
    | none => parseAux acc ls

/-- `parse_go_sum` (lines 8-22); the file is given as its list of lines. -/
def parse_go_sum (ls : List (List Char)) : CMap := parseAux [] ls

/-- `"\n        "` — the separator used by the replacement f-string of line 42. -/
def spc8 : List Char := "\n        ".data

/-- `" = \""` — between a field key and its value in the f-string of line 42. -/
def litEqQ : List Char := " = \"".data

/-- `"\","` — after a field value in the f-string of line 42. -/
def litQC : List Char := "\",".data

/-- `"\n    )"` — the tail of the f-string of line 42. -/
def litEnd : List Char := "\n    )".data

/-- The replacement f-string of line 42:
`go_repository(\n        name = "{name}",\n        importpath = "{importpath}",\n        sum = "{new_sum}",\n        version = "{version}",\n    )`. -/
def renderRec (r : GoRec) : List Char :=
  litGoRepo ++ spc8 ++ litName ++ litEqQ ++ r.name ++ litQC
    ++ spc8 ++ litImp ++ litEqQ ++ r.impPath ++ litQC
    ++ spc8 ++ litSum ++ litEqQ ++ r.sum ++ litQC
    ++ spc8 ++ litVer ++ litEqQ ++ r.ver ++ litQC ++ litEnd

/-- The message of line 41:
`f"Updating {importpath} {version}: {old_sum} -> {new_sum}"`. -/
def msgInfo (r : GoRec) (newSum : List Char) : List Char :=
  "Updating ".data ++ r.impPath ++ " ".data ++ r.ver
    ++ ": ".data ++ r.sum ++ " -> ".data ++ newSum

/-- The message of line 44: `f"Warning: No checksum found for {key}"`. -/
def msgWarn (r : GoRec) : List Char :=
  "Warning: No checksum found for ".data ++ keyOf r

/-- `replace_checksum` (lines 32-45): given the captured record and the
whole matched text (`match.group(0)`), return the text substituted for
the match together with the line printed. -/
def replace_checksum (m : CMap) (r : GoRec) (whole : List Char) :
    List Char × List Char :=
  match lookupC (keyOf r) m with
  | some newSum => (renderRec ⟨r.name, r.impPath, newSum, r.ver⟩, msgInfo r newSum)
  | none => (whole, msgWarn r)

/-- `re.sub(pattern, replace_checksum, content)` (line 47) together with
the lines printed by the replacer, as a fuel-indexed scan: at each
position try the pattern; on a match emit the replacement and continue
after the match, otherwise copy one character and move on.  The fuel is
instantiated with the length of the text, which always suffices. -/
def reSubGo (m : CMap) : Nat → List Char → List Char × List (List Char)
  | _, [] => ([], [])
  | 0, _ :: _ => ([], [])
  | Nat.succ f, c :: s =>
    match pRecord (c :: s) with
    | some (r, rest) =>
      ((replace_checksum m r ((c :: s).take ((c :: s).length - rest.length))).1
          ++ (reSubGo m f rest).1,
        (replace_checksum m r ((c :: s).take ((c :: s).length - rest.length))).2
          :: (reSubGo m f rest).2)
    | none => (c :: (reSubGo m f s).1, (reSubGo m f s).2)

/-- The rewritten `deps.bzl` content produced by `update_deps_bzl`
(lines 47-50). -/
def update_content (m : CMap) (s : List Char) : List Char :=
  (reSubGo m s.length s).1

/-- The per-match lines printed by `update_deps_bzl` (lines 41 and 44),
in document order. -/
def update_msgs (m : CMap) (s : List Char) : List (List Char) :=
  (reSubGo m s.length s).2

/-- One piece of the scan's decomposition of the input: either a single
character the pattern does not match at, or a matched record with the
exact text of the match (`match.group(0)`). -/
inductive Piece where
  | txt (c : Char)
  | hit (r : GoRec) (span : List Char)
deriving DecidableEq, Repr

/-- The decomposition of the input text performed by the `re.sub` scan:
same scan as `reSubGo`, but recording the pieces instead of substituting. -/
def piecesGo : Nat → List Char → List Piece
  | _, [] => []
  | 0, _ :: _ => []
  | Nat.succ f, c :: s =>
    match pRecord (c :: s) with
    | some (r, rest) =>
      Piece.hit r ((c :: s).take ((c :: s).length - rest.length)) :: piecesGo f rest
    | none => Piece.txt c :: piecesGo f s

/-- The scan decomposition of a text. -/
def piecesOf (s : List Char) : List Piece := piecesGo s.length s

/-- The text a piece contributes to the rewritten file. -/
def pieceOut (m : CMap) : Piece → List Char
  | Piece.txt c => [c]
  | Piece.hit r sp => (replace_checksum m r sp).1

/-- The rewritten file as the concatenation of the pieces' outputs. -/
def outOf (m : CMap) : List Piece → List Char
  | [] => []
  | p :: ps => pieceOut m p ++ outOf m ps

/-- The original text as the concatenation of the pieces. -/
def origOf : List Piece → List Char
  | [] => []
  | Piece.txt c :: ps => c :: origOf ps
  | Piece.hit _ sp :: ps => sp ++ origOf ps

/-- The printed lines contributed by the pieces. -/
def msgsOf (m : CMap) : List Piece → List (List Char)
  | [] => []
  | Piece.txt _ :: ps => msgsOf m ps
  | Piece.hit r sp :: ps => (replace_checksum m r sp).2 :: msgsOf m ps

/-- The record captured by a piece, if any. -/
def recPiece : Piece → Option GoRec
  | Piece.txt _ => none
  | Piece.hit r _ => some r

/-- The records matched in a text, in document order. -/
def recordsOf (s : List Char) : List GoRec :=
  (piecesOf s).filterMap recPiece

/-- The record as rewritten by `replace_checksum`: checksum substituted
when the key is in the dict, untouched otherwise. -/
def updRec (m : CMap) (r : GoRec) : GoRec :=
  match lookupC (keyOf r) m with
  | some v => ⟨r.name, r.impPath, v, r.ver⟩
  | none => r

/-- The message printed for a matched record (lines 41 and 44). -/
def msgFor (m : CMap) (r : GoRec) : List Char :=
  match lookupC (keyOf r) m with
  | some v => msgInfo r v
  | none => msgWarn r

/-- The `__main__` block (lines 54-56) with the two `open` calls of
lines 11, 26 and 49 made explicit: `none` for a file that cannot be
opened for reading (the `open` raises and the uncaught exception
terminates the process — modelled as `Except.error`), and a flag for
whether `deps.bzl` can be opened for writing.  The second component is
the content of `deps.bzl` when the process ends. -/
def update_deps_run (goSum : Option (List (List Char)))
    (deps : Option (List Char)) (writable : Bool) :
    Except Unit (List Char) × Option (List Char) :=
  match goSum with
  | none => (Except.error (), deps)
  | some ls =>
    match deps with
    | none => (Except.error (), deps)
    | some content =>
      if writable then
        (Except.ok (update_content (parse_go_sum ls) content),
          some (update_content (parse_go_sum ls) content))
      else (Except.error (), some content)

/-- A string fit to stand between the quotes of a rendered field: nonempty
and quote-free (every captured group is such, and only such values render
back to a parseable record). -/
def GoodStr (v : List Char) : Prop := v ≠ [] ∧ '"' ∉ v

instance : DecidablePred GoodStr := fun v => by
  unfold GoodStr; infer_instance

/-- Every checksum value held in the dict is nonempty and quote-free
(true of any value a well-formed `go.sum` supplies; a value with a `"`
in it renders a record the pattern can no longer match). -/
def GoodMap (m : CMap) : Prop :=
  ∀ k v, lookupC k m = some v → GoodStr v

/-- `TailOf u t`: `u` is obtained from `t` by removing a front segment. -/
def TailOf (u t : List Char) : Prop := ∃ a, t = a ++ u

/-- One field of the replacement f-string, with its continuation:
`key = "v",` followed by `rest`. -/
def fldTxt (key v rest : List Char) : List Char :=
  key ++ (litEqQ ++ (v ++ (litQC ++ rest)))

/-- A stretch of text the scan must walk through without matching:
no occurrence of the literal `go_repository(` begins at any of its
positions, even with the literal itself appended (so no occurrence can
begin in the stretch and continue into a following record). -/
def GapOK (g : List Char) : Prop :=
  ∀ i, i < g.length → startsWithL litGoRepo (g.drop i ++ litGoRepo) = false

instance (g : List Char) : Decidable (GapOK g) := by
  unfold GapOK; infer_instance

/-- One chunk of a well-formed build file: free text followed by the
exact text of one `go_repository` record. -/
structure Chunk where
  gap : List Char
  span : List Char
  record : GoRec

/-- The chunk's gap is match-free and its span is exactly one match. -/
def ChunkOK (c : Chunk) : Prop :=
  GapOK c.gap ∧ pRecord c.span = some (c.record, [])

instance (c : Chunk) : Decidable (ChunkOK c) := by
  unfold ChunkOK; infer_instance

/-- A well-formed build file: records separated by match-free text,
with a match-free trailer. -/
def WFile (cs : List Chunk) (tail : List Char) : Prop :=
  (∀ c ∈ cs, ChunkOK c) ∧ GapOK tail

instance (cs : List Chunk) (t : List Char) : Decidable (WFile cs t) := by
  unfold WFile; infer_instance

/-- Reassemble a chunked build file. -/
def flattenW : List Chunk → List Char → List Char
  | [], t => t
  | c :: cs, t => c.gap ++ (c.span ++ flattenW cs t)

/-- The scan pieces of a chunked build file. -/
def piecesW : List Chunk → List Char → List Piece
  | [], t => t.map Piece.txt
  | c :: cs, t => c.gap.map Piece.txt ++ (Piece.hit c.record c.span :: piecesW cs t)

/-- The effect of one run of the updater on a chunk: when the record's
key is in the dict its span becomes the canonical rendering with the
new checksum; otherwise the chunk is untouched. -/
def updChunk (m : CMap) (c : Chunk) : Chunk :=
  match lookupC (keyOf c.record) m with
  | some v =>
    ⟨c.gap, renderRec ⟨c.record.name, c.record.impPath, v, c.record.ver⟩,
      ⟨c.record.name, c.record.impPath, v, c.record.ver⟩⟩
  | none => c

/-! ### Concrete inputs used to test the claims -/

/-- A plain record: `name "x"`, import path `example.com/foo`, old
checksum `h1:old=`, version `v1.0.0`. -/
def cex1Rec : GoRec :=
  ⟨"x".data, "example.com/foo".data, "h1:old=".data, "v1.0.0".data⟩

/-- A build file holding exactly that record, canonically laid out. -/
def cex1S : List Char := renderRec cex1Rec

/-- A checksum value containing a double quote, as a `go.sum` line such
as `example.com/foo v1.0.0 a"b` would produce. -/
def cex1Val : List Char := "a\"b".data

/-- A dict mapping the record's key to the quote-carrying value. -/
def cex1Map : CMap := [(keyOf cex1Rec, cex1Val)]

/-- Same shape for the record-count claim, on its own input. -/
def cex7Rec : GoRec :=
  ⟨"y".data, "example.com/bar".data, "h1:old=".data, "v2.0.0".data⟩

/-- A build file holding exactly `cex7Rec`. -/
def cex7S : List Char := renderRec cex7Rec

/-- A dict sending `cex7Rec`'s key to a quote-carrying checksum. -/
def cex7Map : CMap := [(keyOf cex7Rec, "h1:x\"y=".data)]

/-- A record whose field values are crafted so that the canonical
replacement, juxtaposed with the partial-record text preceding it,
matches the pattern at an earlier position on a second scan. -/
def c4Rec : GoRec := ⟨",importpath=".data, ",sum=".data, "OLD".data, ",)".data⟩

/-- The key of the spurious record found by the second scan. -/
def c4wKey : List Char :=
  ",\n        importpath = @,\n        version = ".data

/-- Maps `c4Rec`'s key (`,sum=@,)`) to `,version=`, and the spurious
second-scan key to `X`. -/
def c4Map : CMap :=
  [(",sum=@,)".data, ",version=".data), (c4wKey, "X".data)]

/-- A build file: the spurious prefix `go_repository( name = "` followed
by `c4Rec` canonically laid out. -/
def c4S : List Char := "go_repository( name = \"".data ++ renderRec c4Rec

/-- A plain record for the witnesses of the amended claims. -/
def c1wRec : GoRec := ⟨"w".data, "example.com/aaa".data, "h1:o=".data, "v1".data⟩

/-- A one-chunk well-formed build file holding `c1wRec`. -/
def c1wCs : List Chunk := [⟨[], renderRec c1wRec, c1wRec⟩]

/-- A dict updating `c1wRec`'s checksum. -/
def c1wMap : CMap := [(keyOf c1wRec, "h1:n=".data)]

/-- A plain record for the idempotence witness. -/
def c4wRec : GoRec := ⟨"z".data, "example.com/bbb".data, "h1:p=".data, "v2".data⟩

/-- A one-chunk well-formed build file holding `c4wRec`, with a gap. -/
def c4wCs : List Chunk := [⟨"# deps\n".data, renderRec c4wRec, c4wRec⟩]

/-- A dict updating `c4wRec`'s checksum. -/
def c4wMap : CMap := [(keyOf c4wRec, "h1:q=".data)]

/-- A plain record for the record-count witness. -/
def c7wRec : GoRec := ⟨"u".data, "example.com/ccc".data, "h1:r=".data, "v3".data⟩

/-- A one-chunk well-formed build file holding `c7wRec`. -/
def c7wCs : List Chunk := [⟨[], renderRec c7wRec, c7wRec⟩]

/-- A dict that does not know `c7wRec`'s key. -/
def c7wMap : CMap := [("other@v9".data, "h1:s=".data)]

/-- A record for the kept-verbatim witness. -/
def c3wRec : GoRec := ⟨"k".data, "example.com/ddd".data, "h1:t=".data, "v4".data⟩

/-- Its exact span in the build file below. -/
def c3wSpan : List Char := renderRec c3wRec

/-- A build file with text around the record. -/
def c3wS : List Char := "xx ".data ++ c3wSpan ++ " yy".data

/-- A record written in a one-line, non-canonical layout. -/
def c5wRec : GoRec := ⟨"n".data, "i".data, "s".data, "v".data⟩

/-- The non-canonical span: single spaces, no newlines. -/
def c5wSpan : List Char :=
  "go_repository(name=\"n\", importpath=\"i\", sum=\"s\", version=\"v\",)".data

/-- A build file holding only that span. -/
def c5wS : List Char := c5wSpan

/-- A dict updating `c5wRec`'s checksum. -/
def c5wMap : CMap := [("i@v".data, "NEW".data)]

/-- Manifest lines for the last-wins witness. -/
def c2wPre : List (List Char) := ["example.com/a v1 h1:a=".data]

/-- The qualifying line of the last-wins witness. -/
def c2wLine : List Char := "mod v1 c1".data

/-- Later lines, none with the key `mod@v1`. -/
def c2wPost : List (List Char) := ["other v2 c2".data]

/-- A malformed manifest line: a single field. -/
def c9wLine : List Char := "ab".data

/-- A following well-formed manifest line. -/
def c9wRest : List (List Char) := ["example.com/a v1 h1:a=".data]

/-- A `deps.bzl` content for the I/O-failure witness. -/
def c10wD : List Char := "nothing here".data

/-! ## Basic list lemmas -/

theorem take_len_append (a b : List Char) : (a ++ b).take a.length = a := by
  induction a with
  | nil => rfl
  | cons c a ih => simp [List.take, ih]

theorem dropWhile_len_le (p : Char → Bool) (l : List Char) :
    (l.dropWhile p).length ≤ l.length := by
  induction l with
  | nil => simp [List.dropWhile]
  | cons c l ih =>
    simp only [List.dropWhile]
    cases p c
    · simp
    · simp only [List.length_cons]
      exact Nat.le_succ_of_le ih

theorem takeWhile_dropWhile_append (p : Char → Bool) (l : List Char) :
    l.takeWhile p ++ l.dropWhile p = l := by
  induction l with
  | nil => rfl
  | cons c l ih =>
    simp only [List.takeWhile, List.dropWhile]
    cases p c <;> simp [ih]

theorem dropWhile_append_ne (p : Char → Bool) (l w : List Char)
    (h : l.dropWhile p ≠ []) :
    (l ++ w).dropWhile p = l.dropWhile p ++ w := by
  induction l with
  | nil => simp [List.dropWhile] at h
  | cons c l ih =>
    simp only [List.dropWhile, List.cons_append] at *
    cases hc : p c with
    | true => simp only [hc] at h ⊢; exact ih h
    | false => simp only [hc]; rfl

theorem takeWhile_append_ne (p : Char → Bool) (l w : List Char)
    (h : l.dropWhile p ≠ []) :
    (l ++ w).takeWhile p = l.takeWhile p := by
  induction l with
  | nil => simp [List.dropWhile] at h
  | cons c l ih =>
    simp only [List.dropWhile, List.takeWhile, List.cons_append] at *
    cases hc : p c with
    | true => simp only [hc, List.append_eq] at h ⊢; rw [ih h]
    | false => simp only [hc]

theorem takeWhile_append_all (p : Char → Bool) (a b : List Char)
    (h : ∀ c ∈ a, p c = true) :
    (a ++ b).takeWhile p = a ++ b.takeWhile p := by
  induction a with
  | nil => rfl
  | cons c a ih =>
    have hc : p c = true := h c (by simp)
    simp only [List.cons_append, List.takeWhile, hc, List.append_eq]
    rw [ih (fun d hd => h d (by simp [hd]))]

theorem dropWhile_append_all (p : Char → Bool) (a b : List Char)
    (h : ∀ c ∈ a, p c = true) :
    (a ++ b).dropWhile p = b.dropWhile p := by
  induction a with
  | nil => rfl
  | cons c a ih =>
    have hc : p c = true := h c (by simp)
    simp only [List.cons_append, List.dropWhile, hc]
    exact ih (fun d hd => h d (by simp [hd]))

theorem takeWhile_pred (p : Char → Bool) (l : List Char) (c : Char)
    (h : c ∈ l.takeWhile p) : p c = true := by
  induction l with
  | nil => simp [List.takeWhile] at h
  | cons d l ih =>
    simp only [List.takeWhile] at h
    cases hd : p d with
    | true =>
      simp only [hd, List.mem_cons] at h
      rcases h with rfl | h
      · exact hd
      · exact ih h
    | false => simp [hd] at h

/-! ## `startsWithL` and `pLit` -/

theorem startsWithL_append_true (p a : List Char) (h : startsWithL p a = true)
    (b : List Char) : startsWithL p (a ++ b) = true := by
  induction p generalizing a with
  | nil => rfl
  | cons c p ih =>
    cases a with
    | nil => simp [startsWithL] at h
    | cons d a =>
      simp only [startsWithL, List.cons_append, Bool.and_eq_true] at *
      exact ⟨h.1, ih a h.2 ⟩

theorem startsWithL_append_of_le (p a b : List Char) (h : p.length ≤ a.length) :
    startsWithL p (a ++ b) = startsWithL p a := by
  induction p generalizing a with
  | nil => rfl
  | cons c p ih =>
    cases a with
    | nil => simp at h
    | cons d a =>
      simp only [startsWithL, List.cons_append, List.append_eq]
      simp only [List.length_cons, Nat.add_le_add_iff_right] at h
      rw [ih a h]

theorem pLit_self (p x : List Char) : pLit p (p ++ x) = some x := by
  induction p with
  | nil => rfl
  | cons c p ih => simp [pLit, ih]

theorem pLit_eq_append (p s u : List Char) (h : pLit p s = some u) :
    s = p ++ u := by
  induction p generalizing s with
  | nil => simpa [pLit] using h
  | cons c p ih =>
    cases s with
    | nil => simp [pLit] at h
    | cons d s =>
      simp only [pLit] at h
      split at h
      · next heq => subst heq; simpa using ih s h
      · exact absurd h (by simp)

theorem pLit_append (p t w u : List Char) (h : pLit p t = some u) :
    pLit p (t ++ w) = some (u ++ w) := by
  induction p generalizing t with
  | nil =>
    simp only [pLit, Option.some.injEq] at h
    simp [pLit, h]
  | cons c p ih =>
    cases t with
    | nil => simp [pLit] at h
    | cons d t =>
      simp only [pLit] at h ⊢
      split at h
      · next heq => simpa [List.cons_append, pLit, heq] using ih t h
      · exact absurd h (by simp)

theorem pLit_arg_ne (c : Char) (p x u : List Char)
    (h : pLit (c :: p) x = some u) : x ≠ [] := by
  intro hx; subst hx; simp [pLit] at h

theorem pLit_none_of (p x : List Char) (h : startsWithL p x = false) :
    pLit p x = none := by
  induction p generalizing x with
  | nil => simp [startsWithL] at h
  | cons c p ih =>
    cases x with
    | nil => rfl
    | cons d x =>
      simp only [startsWithL, Bool.and_eq_false_iff] at h
      simp only [pLit]
      rcases h with h | h
      · split
        · next heq => subst heq; simp at h
        · rfl
      · split
        · exact ih x h
        · rfl

theorem startsWithL_of_pLit (p x u : List Char) (h : pLit p x = some u) :
    startsWithL p x = true := by
  induction p generalizing x with
  | nil => rfl
  | cons c p ih =>
    cases x with
    | nil => simp [pLit] at h
    | cons d x =>
      simp only [pLit] at h
      split at h
      · next heq => subst heq; simp [startsWithL, ih x h]
      · exact absurd h (by simp)

/-! ## `pGrp` lemmas -/

theorem dropWhile_head_not (p : Char → Bool) (l : List Char) (c : Char)
    (r : List Char) (h : l.dropWhile p = c :: r) : p c = false := by
  induction l with
  | nil => simp [List.dropWhile] at h
  | cons d l ih =>
    simp only [List.dropWhile] at h
    cases hd : p d with
    | true => rw [hd] at h; exact ih h
    | false => rw [hd] at h; injection h with h1 _; subst h1; exact hd

theorem pGrp_elim (s g u : List Char) (h : pGrp s = some (g, u)) :
    g = s.takeWhile (fun c => c != '"') ∧
    s.dropWhile (fun c => c != '"') = '"' :: u ∧ g ≠ [] := by
  unfold pGrp at h
  simp only at h
  split at h
  · simp at h
  · next hcond =>
    simp only [Bool.or_eq_true, not_or] at hcond
    simp only [Option.some.injEq, Prod.mk.injEq] at h
    obtain ⟨h1, h2⟩ := h
    cases hd : s.dropWhile (fun c => c != '"') with
    | nil => rw [hd] at hcond; simp at hcond
    | cons c r =>
      have hc : (c != '"') = false := dropWhile_head_not _ s c r hd
      have hc' : c = '"' := by simpa using hc
      subst hc'
      rw [hd] at h2
      refine ⟨h1.symm, by rw [← h2]; rfl, ?_⟩
      rw [← h1]
      simpa [List.isEmpty_iff] using hcond.1

theorem pGrp_intro (s g u : List Char)
    (h1 : s.takeWhile (fun c => c != '"') = g)
    (h2 : s.dropWhile (fun c => c != '"') = '"' :: u)
    (h3 : g ≠ []) : pGrp s = some (g, u) := by
  unfold pGrp
  simp only [h1, h2]
  rw [if_neg]
  · rfl
  · simp [List.isEmpty_iff, h3]

/-- A string fit to stand between the quotes of a rendered field: nonempty
and quote-free (every captured group is such, and only such values render
back to a parseable record). -/
theorem pGrp_good (s g u : List Char) (h : pGrp s = some (g, u)) : GoodStr g := by
  obtain ⟨h1, _, h3⟩ := pGrp_elim s g u h
  refine ⟨h3, fun hq => ?_⟩
  rw [h1] at hq
  have := takeWhile_pred _ _ _ hq
  simp at this

theorem pGrp_split (s g u : List Char) (h : pGrp s = some (g, u)) :
    s = g ++ '"' :: u := by
  obtain ⟨h1, h2, _⟩ := pGrp_elim s g u h
  conv_lhs => rw [← takeWhile_dropWhile_append (fun c => c != '"') s]
  rw [← h1, h2]

theorem pGrp_append (t w g u : List Char) (h : pGrp t = some (g, u)) :
    pGrp (t ++ w) = some (g, u ++ w) := by
  obtain ⟨h1, h2, h3⟩ := pGrp_elim t g u h
  have hne : t.dropWhile (fun c => c != '"') ≠ [] := by rw [h2]; simp
  apply pGrp_intro
  · rw [takeWhile_append_ne _ _ _ hne, ← h1]
  · rw [dropWhile_append_ne _ _ _ hne, h2]; rfl
  · exact h3

theorem pGrp_exact (v z : List Char) (hv : GoodStr v) :
    pGrp (v ++ '"' :: z) = some (v, z) := by
  have hall : ∀ c ∈ v, (c != '"') = true := by
    intro c hc
    simp only [bne_iff_ne, ne_eq]
    intro he; subst he; exact hv.2 hc
  apply pGrp_intro
  · rw [takeWhile_append_all _ _ _ hall]
    simp [List.takeWhile]
  · rw [dropWhile_append_all _ _ _ hall]
    simp [List.dropWhile]
  · exact hv.1

/-! ## `TailOf`: the remaining text is a suffix -/

theorem TailOf.rfl (t : List Char) : TailOf t t := ⟨[], by simp⟩

theorem TailOf.trans {u v t : List Char} (h1 : TailOf v t) (h2 : TailOf u v) :
    TailOf u t := by
  obtain ⟨a, ha⟩ := h1
  obtain ⟨b, hb⟩ := h2
  exact ⟨a ++ b, by rw [ha, hb, List.append_assoc]⟩

theorem TailOf.len {u t : List Char} (h : TailOf u t) : u.length ≤ t.length := by
  obtain ⟨a, ha⟩ := h
  rw [ha]; simp

theorem TailOf.lit {p u t : List Char} (h : pLit p t = some u) : TailOf u t :=
  ⟨p, pLit_eq_append p t u h⟩

theorem TailOf.dropW (p : Char → Bool) (l : List Char) :
    TailOf (l.dropWhile p) l :=
  ⟨l.takeWhile p, (takeWhile_dropWhile_append p l).symm⟩

theorem TailOf.grp {s g u : List Char} (h : pGrp s = some (g, u)) :
    TailOf u s := ⟨g ++ ['"'], by rw [pGrp_split s g u h]; simp⟩

theorem pField_elim {key t v u : List Char} (h : pField key t = some (v, u)) :
    ∃ s1 s2 s3 s4,
      pLit key t = some s1 ∧
      pLit litEq (s1.dropWhile isPySpace) = some s2 ∧
      pLit litQuote (s2.dropWhile isPySpace) = some s3 ∧
      pGrp s3 = some (v, s4) ∧
      pLit litComma s4 = some u := by
  unfold pField at h
  cases h1 : pLit key t with
  | none => rw [h1] at h; simp only at h; exact absurd h (by simp)
  | some s1 =>
    rw [h1] at h; simp only at h
    cases h2 : pLit litEq (s1.dropWhile isPySpace) with
    | none => rw [h2] at h; simp only at h; exact absurd h (by simp)
    | some s2 =>
      rw [h2] at h; simp only at h
      cases h3 : pLit litQuote (s2.dropWhile isPySpace) with
      | none => rw [h3] at h; simp only at h; exact absurd h (by simp)
      | some s3 =>
        rw [h3] at h; simp only at h
        cases h4 : pGrp s3 with
        | none => rw [h4] at h; simp only at h; exact absurd h (by simp)
        | some gu =>
          obtain ⟨g, s4⟩ := gu
          rw [h4] at h; simp only at h
          cases h5 : pLit litComma s4 with
          | none => rw [h5] at h; simp only at h; exact absurd h (by simp)
          | some s5 =>
            rw [h5] at h; simp only at h
            simp only [Option.some.injEq, Prod.mk.injEq] at h
            obtain ⟨rfl, rfl⟩ := h
            refine ⟨s1, s2, s3, s4, ?_, ?_, ?_, ?_, ?_⟩
            all_goals first | rfl | assumption

theorem TailOf.fld {key t v u : List Char} (h : pField key t = some (v, u)) :
    TailOf u t := by
  obtain ⟨s1, s2, s3, s4, h1, h2, h3, h4, h5⟩ := pField_elim h
  exact ((((((TailOf.lit h1).trans (TailOf.dropW _ s1)).trans
    (TailOf.lit h2)).trans (TailOf.dropW _ s2)).trans
    (TailOf.lit h3)).trans (TailOf.grp h4)).trans (TailOf.lit h5)

theorem pRecord_elim {t : List Char} {r : GoRec} {u : List Char}
    (h : pRecord t = some (r, u)) :
    ∃ s1 s2 s3 s4 s5,
      pLit litGoRepo t = some s1 ∧
      pField litName (s1.dropWhile isPySpace) = some (r.name, s2) ∧
      pField litImp (s2.dropWhile isPySpace) = some (r.impPath, s3) ∧
      pField litSum (s3.dropWhile isPySpace) = some (r.sum, s4) ∧
      pField litVer (s4.dropWhile isPySpace) = some (r.ver, s5) ∧
      pLit litParen (s5.dropWhile isPySpace) = some u := by
  unfold pRecord at h
  cases h1 : pLit litGoRepo t with
  | none => rw [h1] at h; simp only at h; exact absurd h (by simp)
  | some s1 =>
    rw [h1] at h; simp only at h
    cases h2 : pField litName (s1.dropWhile isPySpace) with
    | none => rw [h2] at h; simp only at h; exact absurd h (by simp)
    | some ns2 =>
      obtain ⟨n, s2⟩ := ns2
      rw [h2] at h; simp only at h
      cases h3 : pField litImp (s2.dropWhile isPySpace) with
      | none => rw [h3] at h; simp only at h; exact absurd h (by simp)
      | some is3 =>
        obtain ⟨i, s3⟩ := is3
        rw [h3] at h; simp only at h
        cases h4 : pField litSum (s3.dropWhile isPySpace) with
        | none => rw [h4] at h; simp only at h; exact absurd h (by simp)
        | some ss4 =>
          obtain ⟨sm, s4⟩ := ss4
          rw [h4] at h; simp only at h
          cases h5 : pField litVer (s4.dropWhile isPySpace) with
          | none => rw [h5] at h; simp only at h; exact absurd h (by simp)
          | some vs5 =>
            obtain ⟨vr, s5⟩ := vs5
            rw [h5] at h; simp only at h
            cases h6 : pLit litParen (s5.dropWhile isPySpace) with
            | none => rw [h6] at h; simp only at h; exact absurd h (by simp)
            | some s6 =>
              rw [h6] at h; simp only at h
              simp only [Option.some.injEq, Prod.mk.injEq] at h
              obtain ⟨rfl, rfl⟩ := h
              refine ⟨s1, s2, s3, s4, s5, ?_, ?_, ?_, ?_, ?_, ?_⟩
              all_goals first | rfl | assumption

theorem TailOf.record {t : List Char} {r : GoRec} {u : List Char}
    (h : pRecord t = some (r, u)) : TailOf u t := by
  obtain ⟨s1, s2, s3, s4, s5, h1, h2, h3, h4, h5, h6⟩ := pRecord_elim h
  exact ((((((((((TailOf.lit h1).trans (TailOf.dropW _ s1)).trans
    (TailOf.fld h2)).trans (TailOf.dropW _ s2)).trans
    (TailOf.fld h3)).trans (TailOf.dropW _ s3)).trans
    (TailOf.fld h4)).trans (TailOf.dropW _ s4)).trans
    (TailOf.fld h5)).trans (TailOf.dropW _ s5)).trans
    (TailOf.lit h6)

/-! ## Rebuilding and extending parses -/

theorem pField_intro {key t v u s1 s2 s3 s4 : List Char}
    (h1 : pLit key t = some s1)
    (h2 : pLit litEq (s1.dropWhile isPySpace) = some s2)
    (h3 : pLit litQuote (s2.dropWhile isPySpace) = some s3)
    (h4 : pGrp s3 = some (v, s4))
    (h5 : pLit litComma s4 = some u) :
    pField key t = some (v, u) := by
  unfold pField
  rw [h1]; simp only
  rw [h2]; simp only
  rw [h3]; simp only
  rw [h4]; simp only
  rw [h5]

theorem pRecord_intro {t : List Char} {r : GoRec} {u s1 s2 s3 s4 s5 : List Char}
    (h1 : pLit litGoRepo t = some s1)
    (h2 : pField litName (s1.dropWhile isPySpace) = some (r.name, s2))
    (h3 : pField litImp (s2.dropWhile isPySpace) = some (r.impPath, s3))
    (h4 : pField litSum (s3.dropWhile isPySpace) = some (r.sum, s4))
    (h5 : pField litVer (s4.dropWhile isPySpace) = some (r.ver, s5))
    (h6 : pLit litParen (s5.dropWhile isPySpace) = some u) :
    pRecord t = some (r, u) := by
  unfold pRecord
  rw [h1]; simp only
  rw [h2]; simp only
  rw [h3]; simp only
  rw [h4]; simp only
  rw [h5]; simp only
  rw [h6]

theorem pLit_arg_ne' {p x u : List Char} (hp : p ≠ []) (h : pLit p x = some u) :
    x ≠ [] := by
  cases p with
  | nil => exact absurd rfl hp
  | cons c p => exact pLit_arg_ne c p x u h

theorem pField_arg_ne {key x v u : List Char} (hk : key ≠ [])
    (h : pField key x = some (v, u)) : x ≠ [] := by
  obtain ⟨s1, _, _, _, h1, _⟩ := pField_elim h
  exact pLit_arg_ne' hk h1

theorem dropWhile_ne_of_pLit {p u : List Char} (hp : p ≠ []) (l : List Char)
    (h : pLit p (l.dropWhile isPySpace) = some u) :
    l.dropWhile isPySpace ≠ [] :=
  pLit_arg_ne' hp h

theorem dropWhile_ne_of_pField {key v u : List Char} (hk : key ≠ [])
    (l : List Char) (h : pField key (l.dropWhile isPySpace) = some (v, u)) :
    l.dropWhile isPySpace ≠ [] :=
  pField_arg_ne hk h

theorem litEq_ne : litEq ≠ [] := by decide

theorem litQuote_ne : litQuote ≠ [] := by decide

theorem litComma_ne : litComma ≠ [] := by decide

theorem litParen_ne : litParen ≠ [] := by decide

theorem litName_ne : litName ≠ [] := by decide

theorem litImp_ne : litImp ≠ [] := by decide

theorem litSum_ne : litSum ≠ [] := by decide

theorem litVer_ne : litVer ≠ [] := by decide

/-- A successful parse of a field extends to any continuation of the text. -/
theorem pField_append {key t v u : List Char} (w : List Char)
    (h : pField key t = some (v, u)) :
    pField key (t ++ w) = some (v, u ++ w) := by
  obtain ⟨s1, s2, s3, s4, h1, h2, h3, h4, h5⟩ := pField_elim h
  have d1 : s1.dropWhile isPySpace ≠ [] := dropWhile_ne_of_pLit litEq_ne s1 h2
  have d2 : s2.dropWhile isPySpace ≠ [] := dropWhile_ne_of_pLit litQuote_ne s2 h3
  have h2' : pLit litEq ((s1 ++ w).dropWhile isPySpace) = some (s2 ++ w) := by
    rw [dropWhile_append_ne _ _ _ d1]; exact pLit_append _ _ w _ h2
  have h3' : pLit litQuote ((s2 ++ w).dropWhile isPySpace) = some (s3 ++ w) := by
    rw [dropWhile_append_ne _ _ _ d2]; exact pLit_append _ _ w _ h3
  exact pField_intro (pLit_append _ _ w _ h1) h2' h3'
    (pGrp_append _ w _ _ h4) (pLit_append _ _ w _ h5)

/-- A successful parse of a record extends to any continuation of the text. -/
theorem pRecord_append {t : List Char} {r : GoRec} {u : List Char}
    (w : List Char) (h : pRecord t = some (r, u)) :
    pRecord (t ++ w) = some (r, u ++ w) := by
  obtain ⟨s1, s2, s3, s4, s5, h1, h2, h3, h4, h5, h6⟩ := pRecord_elim h
  have d1 : s1.dropWhile isPySpace ≠ [] := dropWhile_ne_of_pField litName_ne s1 h2
  have d2 : s2.dropWhile isPySpace ≠ [] := dropWhile_ne_of_pField litImp_ne s2 h3
  have d3 : s3.dropWhile isPySpace ≠ [] := dropWhile_ne_of_pField litSum_ne s3 h4
  have d4 : s4.dropWhile isPySpace ≠ [] := dropWhile_ne_of_pField litVer_ne s4 h5
  have d5 : s5.dropWhile isPySpace ≠ [] := dropWhile_ne_of_pLit litParen_ne s5 h6
  have h2' : pField litName ((s1 ++ w).dropWhile isPySpace)
      = some (r.name, s2 ++ w) := by
    rw [dropWhile_append_ne _ _ _ d1]; exact pField_append w h2
  have h3' : pField litImp ((s2 ++ w).dropWhile isPySpace)
      = some (r.impPath, s3 ++ w) := by
    rw [dropWhile_append_ne _ _ _ d2]; exact pField_append w h3
  have h4' : pField litSum ((s3 ++ w).dropWhile isPySpace)
      = some (r.sum, s4 ++ w) := by
    rw [dropWhile_append_ne _ _ _ d3]; exact pField_append w h4
  have h5' : pField litVer ((s4 ++ w).dropWhile isPySpace)
      = some (r.ver, s5 ++ w) := by
    rw [dropWhile_append_ne _ _ _ d4]; exact pField_append w h5
  have h6' : pLit litParen ((s5 ++ w).dropWhile isPySpace) = some (u ++ w) := by
    rw [dropWhile_append_ne _ _ _ d5]; exact pLit_append _ _ w _ h6
  exact pRecord_intro (pLit_append _ _ w _ h1) h2' h3' h4' h5' h6'

/-- The four captured groups of a parsed record are nonempty and quote-free. -/
theorem pRecord_good {t : List Char} {r : GoRec} {u : List Char}
    (h : pRecord t = some (r, u)) :
    GoodStr r.name ∧ GoodStr r.impPath ∧ GoodStr r.sum ∧ GoodStr r.ver := by
  obtain ⟨s1, s2, s3, s4, s5, h1, h2, h3, h4, h5, h6⟩ := pRecord_elim h
  obtain ⟨_, _, _, _, _, _, _, g2, _⟩ := pField_elim h2
  obtain ⟨_, _, _, _, _, _, _, g3, _⟩ := pField_elim h3
  obtain ⟨_, _, _, _, _, _, _, g4, _⟩ := pField_elim h4
  obtain ⟨_, _, _, _, _, _, _, g5, _⟩ := pField_elim h5
  exact ⟨pGrp_good _ _ _ g2, pGrp_good _ _ _ g3, pGrp_good _ _ _ g4,
    pGrp_good _ _ _ g5⟩

/-- A parsed record consumes at least one character (in fact fourteen). -/
theorem pRecord_len {t : List Char} {r : GoRec} {u : List Char}
    (h : pRecord t = some (r, u)) : u.length < t.length := by
  obtain ⟨s1, s2, s3, s4, s5, h1, h2, h3, h4, h5, h6⟩ := pRecord_elim h
  have ht : t = litGoRepo ++ s1 := pLit_eq_append _ _ _ h1
  have hu : TailOf u s1 :=
    (((((((((TailOf.dropW isPySpace s1).trans (TailOf.fld h2)).trans
      (TailOf.dropW _ s2)).trans (TailOf.fld h3)).trans
      (TailOf.dropW _ s3)).trans (TailOf.fld h4)).trans
      (TailOf.dropW _ s4)).trans (TailOf.fld h5)).trans
      (TailOf.dropW _ s5)).trans (TailOf.lit h6)
  have h14 : litGoRepo.length = 14 := rfl
  have := hu.len
  rw [ht]
  simp only [List.length_append, h14]
  omega

/-- A parsed record's text starts with the literal `go_repository(`. -/
theorem pRecord_starts {t : List Char} {r : GoRec} {u : List Char}
    (h : pRecord t = some (r, u)) : ∃ z, t = litGoRepo ++ z := by
  obtain ⟨s1, _, _, _, _, h1, _⟩ := pRecord_elim h
  exact ⟨s1, pLit_eq_append _ _ _ h1⟩

/-- At a position where the text does not start with `go_repository(`,
the pattern does not match. -/
theorem pRecord_none {x : List Char} (h : startsWithL litGoRepo x = false) :
    pRecord x = none := by
  unfold pRecord
  rw [pLit_none_of _ _ h]

/-! ## Parsing the rendered replacement text -/

theorem renderRec_assoc (r : GoRec) (w : List Char) :
    renderRec r ++ w
      = litGoRepo ++ (spc8 ++ fldTxt litName r.name
        (spc8 ++ fldTxt litImp r.impPath (spc8 ++ fldTxt litSum r.sum
          (spc8 ++ fldTxt litVer r.ver (litEnd ++ w))))) := by
  simp [renderRec, fldTxt, List.append_assoc]

theorem pField_render (key v z : List Char) (hv : GoodStr v) :
    pField key (fldTxt key v z) = some (v, z) := by
  have h1 : pLit key (fldTxt key v z)
      = some (litEqQ ++ (v ++ (litQC ++ z))) := pLit_self key _
  have h2 : pLit litEq ((litEqQ ++ (v ++ (litQC ++ z))).dropWhile isPySpace)
      = some (' ' :: '"' :: (v ++ (litQC ++ z))) := rfl
  have h3 : pLit litQuote ((' ' :: '"' :: (v ++ (litQC ++ z))).dropWhile
      isPySpace) = some (v ++ (litQC ++ z)) := rfl
  have h4 : pGrp (v ++ (litQC ++ z)) = some (v, ',' :: z) := by
    have e : litQC ++ z = '"' :: (',' :: z) := rfl
    rw [e]
    exact pGrp_exact v (',' :: z) hv
  have h5 : pLit litComma (',' :: z) = some z := rfl
  exact pField_intro h1 h2 h3 h4 h5

theorem dwName (v z : List Char) :
    (spc8 ++ fldTxt litName v z).dropWhile isPySpace = fldTxt litName v z := rfl

theorem dwImp (v z : List Char) :
    (spc8 ++ fldTxt litImp v z).dropWhile isPySpace = fldTxt litImp v z := rfl

theorem dwSum (v z : List Char) :
    (spc8 ++ fldTxt litSum v z).dropWhile isPySpace = fldTxt litSum v z := rfl

theorem dwVer (v z : List Char) :
    (spc8 ++ fldTxt litVer v z).dropWhile isPySpace = fldTxt litVer v z := rfl

theorem pRecord_render_core (n i sm vr w : List Char) (hn : GoodStr n)
    (hi : GoodStr i) (hs : GoodStr sm) (hv : GoodStr vr) :
    pRecord (litGoRepo ++ (spc8 ++ fldTxt litName n
      (spc8 ++ fldTxt litImp i (spc8 ++ fldTxt litSum sm
        (spc8 ++ fldTxt litVer vr (litEnd ++ w))))))
      = some (⟨n, i, sm, vr⟩, w) := by
  have h2 : pField litName ((spc8 ++ fldTxt litName n
      (spc8 ++ fldTxt litImp i (spc8 ++ fldTxt litSum sm
        (spc8 ++ fldTxt litVer vr (litEnd ++ w))))).dropWhile isPySpace)
      = some (n, spc8 ++ fldTxt litImp i (spc8 ++ fldTxt litSum sm
        (spc8 ++ fldTxt litVer vr (litEnd ++ w)))) := by
    rw [dwName]; exact pField_render litName n _ hn
  have h3 : pField litImp ((spc8 ++ fldTxt litImp i (spc8 ++ fldTxt litSum sm
      (spc8 ++ fldTxt litVer vr (litEnd ++ w)))).dropWhile isPySpace)
      = some (i, spc8 ++ fldTxt litSum sm
        (spc8 ++ fldTxt litVer vr (litEnd ++ w))) := by
    rw [dwImp]; exact pField_render litImp i _ hi
  have h4 : pField litSum ((spc8 ++ fldTxt litSum sm
      (spc8 ++ fldTxt litVer vr (litEnd ++ w))).dropWhile isPySpace)
      = some (sm, spc8 ++ fldTxt litVer vr (litEnd ++ w)) := by
    rw [dwSum]; exact pField_render litSum sm _ hs
  have h5 : pField litVer ((spc8 ++ fldTxt litVer vr
      (litEnd ++ w)).dropWhile isPySpace) = some (vr, litEnd ++ w) := by
    rw [dwVer]; exact pField_render litVer vr _ hv
  have h6 : pLit litParen ((litEnd ++ w).dropWhile isPySpace) = some w := rfl
  exact pRecord_intro (pLit_self _ _) h2 h3 h4 h5 h6

/-- The replacement text of line 42 parses back, with any continuation,
to exactly the record it was rendered from — provided all four field
values are nonempty and quote-free. -/
theorem pRecord_render (r : GoRec) (w : List Char) (hn : GoodStr r.name)
    (hi : GoodStr r.impPath) (hs : GoodStr r.sum) (hv : GoodStr r.ver) :
    pRecord (renderRec r ++ w) = some (r, w) := by
  rw [renderRec_assoc r w]
  exact pRecord_render_core r.name r.impPath r.sum r.ver w hn hi hs hv

/-! ## The scan: fuel adequacy and unfolding equations -/

theorem piecesGo_congr : ∀ (f f' : Nat) (s : List Char), s.length ≤ f →
    s.length ≤ f' → piecesGo f s = piecesGo f' s := by
  intro f
  induction f with
  | zero =>
    intro f' s hf hf'
    cases s with
    | nil => cases f' <;> rfl
    | cons c s => simp at hf
  | succ f ih =>
    intro f' s hf hf'
    cases s with
    | nil => cases f' <;> rfl
    | cons c s =>
      cases f' with
      | zero => simp at hf'
      | succ f' =>
        simp only [piecesGo]
        cases hp : pRecord (c :: s) with
        | none =>
          simp only
          simp only [List.length_cons] at hf hf'
          rw [ih f' s (by omega) (by omega)]
        | some ru =>
          obtain ⟨r, rest⟩ := ru
          simp only
          have hlen := pRecord_len hp
          simp only [List.length_cons] at hf hf' hlen
          rw [ih f' rest (by omega) (by omega)]

theorem piecesOf_nil : piecesOf [] = [] := rfl

theorem piecesOf_cons_hit {c : Char} {s : List Char} {r : GoRec}
    {rest : List Char} (h : pRecord (c :: s) = some (r, rest)) :
    piecesOf (c :: s)
      = Piece.hit r ((c :: s).take ((c :: s).length - rest.length))
        :: piecesOf rest := by
  have hlen := pRecord_len h
  simp only [List.length_cons] at hlen
  unfold piecesOf
  simp only [List.length_cons, piecesGo, h]
  rw [piecesGo_congr s.length rest.length rest (by omega) (by omega)]

theorem piecesOf_cons_txt {c : Char} {s : List Char}
    (h : pRecord (c :: s) = none) :
    piecesOf (c :: s) = Piece.txt c :: piecesOf s := by
  unfold piecesOf
  simp only [List.length_cons, piecesGo, h]

/-- The faithful `re.sub` scan agrees with the piecewise decomposition. -/
theorem reSubGo_eq_pieces (m : CMap) : ∀ (f : Nat) (s : List Char),
    s.length ≤ f →
    reSubGo m f s = (outOf m (piecesGo f s), msgsOf m (piecesGo f s)) := by
  intro f
  induction f with
  | zero =>
    intro s hf
    cases s with
    | nil => rfl
    | cons c s => simp at hf
  | succ f ih =>
    intro s hf
    cases s with
    | nil => rfl
    | cons c s =>
      simp only [reSubGo, piecesGo]
      cases hp : pRecord (c :: s) with
      | none =>
        simp only
        simp only [List.length_cons] at hf
        rw [ih s (by omega)]
        simp [outOf, msgsOf, pieceOut]
      | some ru =>
        obtain ⟨r, rest⟩ := ru
        simp only
        have hlen := pRecord_len hp
        simp only [List.length_cons] at hf hlen
        rw [ih rest (by omega)]
        simp [outOf, msgsOf, pieceOut]

theorem update_content_eq (m : CMap) (s : List Char) :
    update_content m s = outOf m (piecesOf s) := by
  unfold update_content piecesOf
  rw [reSubGo_eq_pieces m s.length s (Nat.le_refl _)]

theorem update_msgs_eq (m : CMap) (s : List Char) :
    update_msgs m s = msgsOf m (piecesOf s) := by
  unfold update_msgs piecesOf
  rw [reSubGo_eq_pieces m s.length s (Nat.le_refl _)]

/-- The pieces of the scan reassemble to the original text. -/
theorem origOf_pieces : ∀ (f : Nat) (s : List Char), s.length ≤ f →
    origOf (piecesGo f s) = s := by
  intro f
  induction f with
  | zero =>
    intro s hf
    cases s with
    | nil => rfl
    | cons c s => simp at hf
  | succ f ih =>
    intro s hf
    cases s with
    | nil => rfl
    | cons c s =>
      simp only [piecesGo]
      cases hp : pRecord (c :: s) with
      | none =>
        simp only
        simp only [List.length_cons] at hf
        simp only [origOf]
        rw [ih s (by omega)]
      | some ru =>
        obtain ⟨r, rest⟩ := ru
        simp only
        have hlen := pRecord_len hp
        simp only [List.length_cons] at hf hlen
        simp only [origOf]
        rw [ih rest (by omega)]
        obtain ⟨a, ha⟩ := TailOf.record hp
        rw [ha]
        have : (a ++ rest).length - rest.length = a.length := by simp
        rw [this, take_len_append]

theorem origOf_piecesOf (s : List Char) : origOf (piecesOf s) = s :=
  origOf_pieces s.length s (Nat.le_refl _)

/-! ## Scanning a well-formed file -/

/-- The scan walks through a stretch where the pattern matches nowhere,
copying it character by character. -/
theorem pieces_gap : ∀ (g rest : List Char),
    (∀ i, i < g.length → startsWithL litGoRepo (g.drop i ++ rest) = false) →
    piecesOf (g ++ rest) = g.map Piece.txt ++ piecesOf rest := by
  intro g
  induction g with
  | nil => intro rest h; simp
  | cons c g ih =>
    intro rest h
    have h0 : startsWithL litGoRepo (c :: (g ++ rest)) = false := by
      have h' := h 0 (by simp)
      simpa using h'
    have hnone : pRecord (c :: (g ++ rest)) = none := pRecord_none h0
    have e : (c :: g) ++ rest = c :: (g ++ rest) := rfl
    rw [e, piecesOf_cons_txt hnone]
    rw [ih rest (fun i hi => by
      have := h (i + 1) (by simp; omega)
      simpa using this)]
    rfl

/-- The scan consumes an exact record span in one step. -/
theorem pieces_record (sp : List Char) (r : GoRec) (rest : List Char)
    (h : pRecord sp = some (r, [])) :
    piecesOf (sp ++ rest) = Piece.hit r sp :: piecesOf rest := by
  have happ : pRecord (sp ++ rest) = some (r, rest) := by
    have := pRecord_append rest h
    simpa using this
  cases sp with
  | nil =>
    have : pRecord ([] : List Char) = none := rfl
    rw [this] at h
    exact absurd h (by simp)
  | cons c sp' =>
    have e : (c :: sp') ++ rest = c :: (sp' ++ rest) := rfl
    rw [e] at happ ⊢
    rw [piecesOf_cons_hit happ]
    have elen : (c :: (sp' ++ rest)).length - rest.length
        = (c :: sp').length := by
      simp only [List.length_cons, List.length_append]
      omega
    rw [elen]
    have etake : (c :: (sp' ++ rest)).take (c :: sp').length = c :: sp' :=
      take_len_append (c :: sp') rest
    rw [etake]

/-- The scan of a well-formed file finds exactly its records, in order,
and copies its gaps verbatim. -/
theorem pieces_flatten : ∀ (cs : List Chunk) (tail : List Char),
    WFile cs tail → piecesOf (flattenW cs tail) = piecesW cs tail := by
  intro cs
  induction cs with
  | nil =>
    intro tail h
    have cond : ∀ i, i < tail.length →
        startsWithL litGoRepo (tail.drop i ++ []) = false := by
      intro i hi
      rw [List.append_nil]
      cases hx : startsWithL litGoRepo (tail.drop i) with
      | false => rfl
      | true =>
        have := startsWithL_append_true _ _ hx litGoRepo
        rw [h.2 i hi] at this
        exact absurd this (by simp)
    have e := pieces_gap tail [] cond
    simpa [piecesW, flattenW, piecesOf_nil] using e
  | cons ck cs ih =>
    intro tail h
    obtain ⟨hall, htail⟩ := h
    obtain ⟨hgap, hspan⟩ := hall ck (by simp)
    obtain ⟨z, hz⟩ := pRecord_starts hspan
    have cond : ∀ i, i < ck.gap.length →
        startsWithL litGoRepo
          (ck.gap.drop i ++ (ck.span ++ flattenW cs tail)) = false := by
      intro i hi
      rw [hz]
      have e : ck.gap.drop i ++ ((litGoRepo ++ z) ++ flattenW cs tail)
          = (ck.gap.drop i ++ litGoRepo) ++ (z ++ flattenW cs tail) := by
        simp [List.append_assoc]
      rw [e, startsWithL_append_of_le _ _ _ (by simp)]
      exact hgap i hi
    show piecesOf (ck.gap ++ (ck.span ++ flattenW cs tail)) = _
    rw [pieces_gap _ _ cond, pieces_record _ _ _ hspan,
      ih tail ⟨fun c hc => hall c (by simp [hc]), htail⟩]
    rfl

/-! ## The rewritten file of a well-formed input -/

theorem outOf_map_txt (m : CMap) (g : List Char) (ps : List Piece) :
    outOf m (g.map Piece.txt ++ ps) = g ++ outOf m ps := by
  induction g with
  | nil => rfl
  | cons c g ih => simp [outOf, pieceOut, ih]

theorem outOf_piecesW (m : CMap) : ∀ (cs : List Chunk) (tail : List Char),
    outOf m (piecesW cs tail) = flattenW (cs.map (updChunk m)) tail := by
  intro cs
  induction cs with
  | nil =>
    intro tail
    simp only [piecesW, flattenW, List.map_nil]
    induction tail with
    | nil => rfl
    | cons c t ih => simp only [List.map_cons, outOf, pieceOut, ih]; rfl
  | cons ck cs ih =>
    intro tail
    simp only [piecesW, List.map_cons, flattenW]
    rw [outOf_map_txt]
    simp only [outOf]
    rw [ih]
    cases hl : lookupC (keyOf ck.record) m with
    | none => simp [pieceOut, replace_checksum, updChunk, hl, flattenW]
    | some v => simp [pieceOut, replace_checksum, updChunk, hl, flattenW]

theorem replace_checksum_snd (m : CMap) (r : GoRec) (sp : List Char) :
    (replace_checksum m r sp).2 = msgFor m r := by
  unfold replace_checksum msgFor
  cases lookupC (keyOf r) m <;> rfl

/-- The printed lines are exactly one message per matched record, in
document order. -/
theorem msgsOf_eq (m : CMap) : ∀ ps : List Piece,
    msgsOf m ps = (ps.filterMap recPiece).map (msgFor m) := by
  intro ps
  induction ps with
  | nil => rfl
  | cons p ps ih =>
    cases p with
    | txt c => simp only [msgsOf, ih, List.filterMap_cons, recPiece]
    | hit r sp =>
      simp only [msgsOf, ih, List.filterMap_cons, recPiece, List.map_cons,
        replace_checksum_snd]

theorem filterMap_map_txt (g : List Char) (ps : List Piece) :
    (g.map Piece.txt ++ ps).filterMap recPiece = ps.filterMap recPiece := by
  induction g with
  | nil => rfl
  | cons c g ih => simp only [List.map_cons, List.cons_append,
      List.filterMap_cons, recPiece, ih]

theorem filterMap_piecesW : ∀ (cs : List Chunk) (tail : List Char),
    (piecesW cs tail).filterMap recPiece = cs.map Chunk.record := by
  intro cs
  induction cs with
  | nil =>
    intro tail
    simp only [piecesW, List.map_nil]
    have e := filterMap_map_txt tail []
    simpa using e
  | cons ck cs ih =>
    intro tail
    simp only [piecesW, List.map_cons]
    rw [filterMap_map_txt]
    simp only [List.filterMap_cons, recPiece, ih]

/-! ## One run on a well-formed file, record by record -/

theorem updChunk_record (m : CMap) (c : Chunk) :
    (updChunk m c).record = updRec m c.record := by
  unfold updChunk updRec
  cases hl : lookupC (keyOf c.record) m with
  | none => simp [hl]
  | some v => simp [hl]

theorem keyOf_updRec (m : CMap) (r : GoRec) :
    keyOf (updRec m r) = keyOf r := by
  unfold updRec
  cases hl : lookupC (keyOf r) m with
  | none => simp [hl]
  | some v => simp [hl, keyOf]

theorem updRec_fields (m : CMap) (r : GoRec) (v : List Char)
    (hl : lookupC (keyOf r) m = some v) :
    (updRec m r).sum = v ∧ (updRec m r).name = r.name ∧
    (updRec m r).impPath = r.impPath ∧ (updRec m r).ver = r.ver := by
  unfold updRec
  simp [hl]

theorem updChunk_idem (m : CMap) (c : Chunk) :
    updChunk m (updChunk m c) = updChunk m c := by
  unfold updChunk
  cases hl : lookupC (keyOf c.record) m with
  | none => simp [hl]
  | some v =>
    simp only [hl]
    have hk : keyOf (⟨c.record.name, c.record.impPath, v, c.record.ver⟩ : GoRec)
        = keyOf c.record := by simp [keyOf]
    simp [hk, hl]

theorem WFile_upd (m : CMap) (cs : List Chunk) (tail : List Char)
    (hw : WFile cs tail) (hm : GoodMap m) :
    WFile (cs.map (updChunk m)) tail := by
  refine ⟨?_, hw.2⟩
  intro c' hc'
  simp only [List.mem_map] at hc'
  obtain ⟨c, hc, rfl⟩ := hc'
  obtain ⟨hgap, hspan⟩ := hw.1 c hc
  unfold updChunk
  cases hl : lookupC (keyOf c.record) m with
  | none => exact ⟨hgap, hspan⟩
  | some v =>
    refine ⟨hgap, ?_⟩
    obtain ⟨hn, hi, hs, hv⟩ := pRecord_good hspan
    have hgv : GoodStr v := hm _ _ hl
    have e := pRecord_render
      ⟨c.record.name, c.record.impPath, v, c.record.ver⟩ [] hn hi hgv hv
    simpa using e

theorem records_flattenW (cs : List Chunk) (tail : List Char)
    (h : WFile cs tail) :
    recordsOf (flattenW cs tail) = cs.map Chunk.record := by
  unfold recordsOf
  rw [pieces_flatten cs tail h, filterMap_piecesW]

theorem update_flattenW (m : CMap) (cs : List Chunk) (tail : List Char)
    (h : WFile cs tail) :
    update_content m (flattenW cs tail)
      = flattenW (cs.map (updChunk m)) tail := by
  rw [update_content_eq, pieces_flatten cs tail h, outOf_piecesW]

/-- Master lemma: on a well-formed file with a well-formed dict, the
records of the rewritten file are exactly the records of the input,
each updated by `updRec`. -/
theorem records_update_master (m : CMap) (cs : List Chunk)
    (tail : List Char) (hw : WFile cs tail) (hm : GoodMap m) :
    recordsOf (update_content m (flattenW cs tail))
      = (recordsOf (flattenW cs tail)).map (updRec m) := by
  rw [update_flattenW m cs tail hw,
    records_flattenW _ _ (WFile_upd m cs tail hw hm),
    records_flattenW cs tail hw, List.map_map, List.map_map]
  have e : (Chunk.record ∘ updChunk m) = (updRec m ∘ Chunk.record) :=
    funext (fun c => updChunk_record m c)
  rw [e]

/-- Master lemma: a second run over the output of a first run is a no-op. -/
theorem update_idem_master (m : CMap) (cs : List Chunk) (tail : List Char)
    (hw : WFile cs tail) (hm : GoodMap m) :
    update_content m (update_content m (flattenW cs tail))
      = update_content m (flattenW cs tail) := by
  rw [update_flattenW m cs tail hw,
    update_flattenW m _ tail (WFile_upd m cs tail hw hm), List.map_map]
  have e : (updChunk m ∘ updChunk m) = updChunk m :=
    funext (fun c => updChunk_idem m c)
  rw [e]

/-! ## Manifest parsing lemmas -/

theorem parseAux_append (xs ys : List (List Char)) : ∀ acc : CMap,
    parseAux acc (xs ++ ys) = parseAux (parseAux acc xs) ys := by
  induction xs with
  | nil => intro acc; rfl
  | cons l xs ih =>
    intro acc
    simp only [List.cons_append, parseAux]
    cases hl : lineEntry l with
    | none => simp only; exact ih _
    | some kv =>
      obtain ⟨k, v⟩ := kv
      simp only
      exact ih _

theorem parseAux_no_key (k : List Char) : ∀ (ls : List (List Char))
    (acc : CMap),
    (∀ l ∈ ls, ∀ k' v', lineEntry l = some (k', v') → k' ≠ k) →
    lookupC k (parseAux acc ls) = lookupC k acc := by
  intro ls
  induction ls with
  | nil => intro acc h; rfl
  | cons l ls ih =>
    intro acc h
    simp only [parseAux]
    cases hl : lineEntry l with
    | none =>
      simp only
      exact ih _ (fun l' hl' => h l' (by simp [hl']))
    | some kv =>
      obtain ⟨k', v'⟩ := kv
      simp only
      rw [ih _ (fun l' hl' => h l' (by simp [hl']))]
      have hk : k' ≠ k := h l (by simp) k' v' hl
      simp only [lookupC, if_neg hk]

/-- A line that strips to nothing or has fewer than three fields
contributes nothing. -/
theorem lineEntry_skip (l : List Char)
    (h : stripWS l = [] ∨ (splitWS (stripWS l)).length < 3) :
    lineEntry l = none := by
  unfold lineEntry
  simp only
  rcases h with h | h
  · simp [h]
  · by_cases he : ((stripWS l).isEmpty || containsSub litGoMod (stripWS l)) = true
    · simp [he]
    · rw [if_neg he]
      cases hs : splitWS (stripWS l) with
      | nil => simp
      | cons a t1 =>
        cases t1 with
        | nil => simp
        | cons b t2 =>
          cases t2 with
          | nil => simp
          | cons c t3 =>
            exfalso
            rw [hs] at h
            simp only [List.length_cons] at h
            omega

/-! ## `GoodMap` helpers -/

theorem GoodMap_nil : GoodMap [] := by
  intro k v h
  simp [lookupC] at h

theorem GoodMap_cons (k v : List Char) (m : CMap) (hv : GoodStr v)
    (hm : GoodMap m) : GoodMap ((k, v) :: m) := by
  intro k' v' h
  simp only [lookupC] at h
  split at h
  · injection h with h'
    rw [← h']
    exact hv
  · exact hm k' v' h

/-! ## The claims -/

/-- **C1** (amended).  For a well-formed build file (records the pattern
matches exactly, separated by text where no match can begin) and a dict
whose values are nonempty and quote-free, the records of the rewritten
file are the records of the input in order, each transformed by
`updRec`; and whenever a record's `importpath@version` key is in the
dict, `updRec` sets its checksum to the mapped value and leaves the
name, import-path and version fields unchanged.  (As literally stated —
for every file and mapping — the claim is false: see `c1_cex`.) -/
theorem c1_checksum_updated (m : CMap) (cs : List Chunk) (tail : List Char)
    (hw : WFile cs tail) (hm : GoodMap m) :
    recordsOf (update_content m (flattenW cs tail))
      = (recordsOf (flattenW cs tail)).map (updRec m)
    ∧ ∀ r v, lookupC (keyOf r) m = some v →
        (updRec m r).sum = v ∧ (updRec m r).name = r.name ∧
        (updRec m r).impPath = r.impPath ∧ (updRec m r).ver = r.ver :=
  ⟨records_update_master m cs tail hw hm,
    fun r v hv => updRec_fields m r v hv⟩

/-- **C1** counterexample.  `cex1S` is a build file with exactly one
record whose key the dict maps to the quote-carrying value `a"b`; the
rewritten file contains no record at all, so no record of the rewritten
file carries the mapped value as its checksum field. -/
theorem c1_cex :
    recordsOf cex1S = [cex1Rec] ∧
    lookupC (keyOf cex1Rec) cex1Map = some cex1Val ∧
    recordsOf (update_content cex1Map cex1S) = [] := by
  refine ⟨by decide, by decide, by decide⟩

theorem c1_witness :
    WFile c1wCs [] ∧ GoodMap c1wMap ∧
    recordsOf (update_content c1wMap (flattenW c1wCs []))
      = (recordsOf (flattenW c1wCs [])).map (updRec c1wMap) :=
  ⟨by decide, GoodMap_cons _ _ _ (by decide) GoodMap_nil,
    (c1_checksum_updated c1wMap c1wCs [] (by decide)
      (GoodMap_cons _ _ _ (by decide) GoodMap_nil)).1⟩

/-- **C2**.  A manifest line that strips to at least three
whitespace-separated fields and has no `/go.mod` marker puts
`module@version ↦ third field` into the dict, and if no later line
yields the same key, that value is the one the dict returns:
the last occurrence of a duplicate key wins. -/
theorem c2_last_wins (pre post : List (List Char)) (l k v : List Char)
    (hl : lineEntry l = some (k, v))
    (hpost : ∀ l' ∈ post, ∀ k' v', lineEntry l' = some (k', v') → k' ≠ k) :
    lookupC k (parse_go_sum (pre ++ l :: post)) = some v := by
  unfold parse_go_sum
  rw [parseAux_append]
  have e : parseAux (parseAux [] pre) (l :: post)
      = parseAux ((k, v) :: parseAux [] pre) post := by
    simp only [parseAux, hl]
  rw [e, parseAux_no_key k post _ hpost]
  simp [lookupC]

theorem c2w_hpost : ∀ l' ∈ c2wPost, ∀ k' v',
    lineEntry l' = some (k', v') → k' ≠ "mod@v1".data := by
  intro l' hl' k' v' he
  simp only [c2wPost, List.mem_cons, List.not_mem_nil, or_false] at hl'
  subst hl'
  have e : lineEntry ("other v2 c2".data)
      = some ("other@v2".data, "c2".data) := by decide
  rw [e] at he
  simp only [Option.some.injEq, Prod.mk.injEq] at he
  obtain ⟨h1, h2⟩ := he
  rw [← h1]
  decide

theorem c2_witness :
    lineEntry c2wLine = some ("mod@v1".data, "c1".data) ∧
    (∀ l' ∈ c2wPost, ∀ k' v', lineEntry l' = some (k', v')
      → k' ≠ "mod@v1".data) ∧
    lookupC ("mod@v1".data) (parse_go_sum (c2wPre ++ c2wLine :: c2wPost))
      = some ("c1".data) :=
  ⟨by decide, c2w_hpost,
    c2_last_wins c2wPre c2wPost c2wLine _ _ (by decide) c2w_hpost⟩

/-- **C3**.  The rewritten file is the concatenation of the scan's
pieces; the pieces reassemble to the input; and the piece of any matched
record whose key is absent from the dict is emitted exactly as its
original span — byte-identical text before and after the run. -/
theorem c3_absent_verbatim (m : CMap) (s : List Char) (r : GoRec)
    (sp : List Char) (hmem : Piece.hit r sp ∈ piecesOf s)
    (habs : lookupC (keyOf r) m = none) :
    update_content m s = outOf m (piecesOf s) ∧ origOf (piecesOf s) = s ∧
    pieceOut m (Piece.hit r sp) = sp :=
  ⟨update_content_eq m s, origOf_piecesOf s,
    by simp [pieceOut, replace_checksum, habs]⟩

theorem c3_witness :
    Piece.hit c3wRec c3wSpan ∈ piecesOf c3wS ∧
    lookupC (keyOf c3wRec) [] = none ∧
    (update_content [] c3wS = outOf [] (piecesOf c3wS) ∧
      origOf (piecesOf c3wS) = c3wS ∧
      pieceOut [] (Piece.hit c3wRec c3wSpan) = c3wSpan) :=
  ⟨by decide, by decide,
    c3_absent_verbatim [] c3wS c3wRec c3wSpan (by decide) (by decide)⟩

/-- **C4** (amended).  On a well-formed build file with a dict of
nonempty quote-free values, the updater is idempotent: a second run
returns the output of the first unchanged.  (As literally stated — for
every text and mapping — idempotence is false: see `c4_cex`.) -/
theorem c4_idempotent (m : CMap) (cs : List Chunk) (tail : List Char)
    (hw : WFile cs tail) (hm : GoodMap m) :
    update_content m (update_content m (flattenW cs tail))
      = update_content m (flattenW cs tail) :=
  update_idem_master m cs tail hw hm

/-- **C4** counterexample.  On `c4S` (a partial-record prefix followed
by a crafted record) with dict `c4Map`, the first run rewrites the
record, the rewritten text matches the pattern at an earlier position,
and the second run rewrites again: `update(update(s)) ≠ update(s)`. -/
theorem c4_cex :
    ¬ update_content c4Map (update_content c4Map c4S)
        = update_content c4Map c4S := by
  decide

theorem c4_witness :
    WFile c4wCs [] ∧ GoodMap c4wMap ∧
    update_content c4wMap (update_content c4wMap (flattenW c4wCs []))
      = update_content c4wMap (flattenW c4wCs []) :=
  ⟨by decide, GoodMap_cons _ _ _ (by decide) GoodMap_nil,
    c4_idempotent c4wMap c4wCs [] (by decide)
      (GoodMap_cons _ _ _ (by decide) GoodMap_nil)⟩

/-- **C5**.  A matched record whose key is in the dict is emitted in the
one canonical layout of the f-string of line 42 — newlines, eight-space
indentation, the four fields in order — whatever whitespace layout its
original span `sp` had; its name, import path and version values are
kept and only the checksum value is replaced. -/
theorem c5_canonical_layout (m : CMap) (s : List Char) (r : GoRec)
    (sp v : List Char) (hmem : Piece.hit r sp ∈ piecesOf s)
    (hv : lookupC (keyOf r) m = some v) :
    update_content m s = outOf m (piecesOf s) ∧
    pieceOut m (Piece.hit r sp) = renderRec ⟨r.name, r.impPath, v, r.ver⟩ :=
  ⟨update_content_eq m s, by simp [pieceOut, replace_checksum, hv]⟩

theorem c5_witness :
    Piece.hit c5wRec c5wSpan ∈ piecesOf c5wS ∧
    lookupC (keyOf c5wRec) c5wMap = some ("NEW".data) ∧
    (update_content c5wMap c5wS = outOf c5wMap (piecesOf c5wS) ∧
      pieceOut c5wMap (Piece.hit c5wRec c5wSpan)
        = renderRec ⟨c5wRec.name, c5wRec.impPath, "NEW".data, c5wRec.ver⟩) :=
  ⟨by decide, by decide,
    c5_canonical_layout c5wMap c5wS c5wRec c5wSpan ("NEW".data)
      (by decide) (by decide)⟩

/-- **C6**.  The output is the input with each matched span replaced (or
kept) and every non-matching character copied verbatim: the scan's
pieces reassemble to the input, the rewritten file is the concatenation
of the pieces' outputs, and a non-matching character's output is itself. -/
theorem c6_surroundings_preserved (m : CMap) (s : List Char) :
    origOf (piecesOf s) = s ∧ update_content m s = outOf m (piecesOf s) ∧
    ∀ c, pieceOut m (Piece.txt c) = [c] :=
  ⟨origOf_piecesOf s, update_content_eq m s, fun c => rfl⟩

/-- **C7** (amended).  On a well-formed build file with a dict of
nonempty quote-free values, the number of records is invariant across a
run.  (As literally stated — for every input file and mapping — the
count can drop: see `c7_cex`.) -/
theorem c7_record_count (m : CMap) (cs : List Chunk) (tail : List Char)
    (hw : WFile cs tail) (hm : GoodMap m) :
    (recordsOf (update_content m (flattenW cs tail))).length
      = (recordsOf (flattenW cs tail)).length := by
  rw [records_update_master m cs tail hw hm, List.length_map]

/-- **C7** counterexample.  With a quote inside the mapped checksum the
rewritten record no longer matches the pattern: one record before the
run, none after. -/
theorem c7_cex :
    ¬ (recordsOf (update_content cex7Map cex7S)).length
        = (recordsOf cex7S).length := by
  decide

theorem c7_witness :
    WFile c7wCs [] ∧ GoodMap c7wMap ∧
    (recordsOf (update_content c7wMap (flattenW c7wCs []))).length
      = (recordsOf (flattenW c7wCs [])).length :=
  ⟨by decide, GoodMap_cons _ _ _ (by decide) GoodMap_nil,
    c7_record_count c7wMap c7wCs [] (by decide)
      (GoodMap_cons _ _ _ (by decide) GoodMap_nil)⟩

/-- **C8**.  The lines printed by a run are exactly one per matched
record, in document order: `msgFor` picks the informational line of
line 41 (which shows the old and the new checksum) when the key is in
the dict, and the warning of line 44 (which names `importpath@version`)
when it is not. -/
theorem c8_one_message_per_match (m : CMap) (s : List Char) :
    update_msgs m s = (recordsOf s).map (msgFor m) ∧
    (∀ r v, lookupC (keyOf r) m = some v → msgFor m r = msgInfo r v) ∧
    (∀ r, lookupC (keyOf r) m = none → msgFor m r = msgWarn r) := by
  refine ⟨?_, ?_, ?_⟩
  · rw [update_msgs_eq, msgsOf_eq]
    rfl
  · intro r v h
    simp [msgFor, h]
  · intro r h
    simp [msgFor, h]

/-- **C9**.  The manifest reader is total; a line that strips to nothing
or to fewer than three fields contributes nothing to the dict (and
nothing is reported for it — the reader produces no messages at all),
and the empty manifest yields the empty dict. -/
theorem c9_malformed_skipped (l : List Char) (ls : List (List Char))
    (h : stripWS l = [] ∨ (splitWS (stripWS l)).length < 3) :
    parse_go_sum (l :: ls) = parse_go_sum ls ∧
    parse_go_sum [] = [] := by
  refine ⟨?_, rfl⟩
  unfold parse_go_sum
  simp only [parseAux, lineEntry_skip l h]

theorem c9_witness :
    (stripWS c9wLine = [] ∨ (splitWS (stripWS c9wLine)).length < 3) ∧
    parse_go_sum (c9wLine :: c9wRest) = parse_go_sum c9wRest :=
  ⟨by decide, (c9_malformed_skipped c9wLine c9wRest (by decide)).1⟩

/-- **C10**.  If `go.sum` cannot be opened for reading, or `deps.bzl`
cannot be opened for reading or writing, the run ends in an uncaught
error (the script installs no handler, so the process exits non-zero)
and the content of `deps.bzl` is left exactly as it was. -/
theorem c10_io_failure (goSum : Option (List (List Char)))
    (deps : Option (List Char)) (w : Bool)
    (h : goSum = none ∨ deps = none ∨ w = false) :
    (update_deps_run goSum deps w).1 = Except.error () ∧
    (update_deps_run goSum deps w).2 = deps := by
  cases goSum with
  | none => exact ⟨rfl, rfl⟩
  | some ls =>
    cases deps with
    | none => exact ⟨rfl, rfl⟩
    | some content =>
      rcases h with h | h | h
      · exact absurd h (by simp)
      · exact absurd h (by simp)
      · subst h
        exact ⟨rfl, rfl⟩

theorem c10_witness :
    ((none : Option (List (List Char))) = none ∨
      (some c10wD : Option (List Char)) = none ∨ true = false) ∧
    (update_deps_run none (some c10wD) true).1 = Except.error () ∧
    (update_deps_run none (some c10wD) true).2 = some c10wD :=
  ⟨Or.inl rfl, c10_io_failure none (some c10wD) true (Or.inl rfl)⟩
